import Mathlib

/-!
Verification development for the MCP server resilience core.

The JavaScript/TypeScript sources are embedded shallowly:
strings are modelled as `List Char`, numbers as `Nat`/`Int`/`ℚ`
(JS arithmetic in the embedded fragments stays within exact ranges),
`Map` objects as association lists, and class instances as explicit
state records threaded through the operations.  `Date.now()` becomes
an explicit `now : Int` argument.
-/

/-! ## JS string primitives used by `src/server/mcp/utils/fuzzyMatch.ts` -/

/-- `String.prototype.toLowerCase`, restricted to per-character lowering. -/
def jsToLower (s : List Char) : List Char := s.map Char.toLower

/-- JS whitespace test (the characters relevant to `trim` on ordinary input). -/
def jsIsSpace (c : Char) : Bool :=
  c = ' ' ∨ c = '\t' ∨ c = '\n' ∨ c = '\r'

/-- `String.prototype.trim`: drop leading and trailing whitespace. -/
def jsTrim (s : List Char) : List Char :=
  ((s.dropWhile jsIsSpace).reverse.dropWhile jsIsSpace).reverse

/-- `t.includes(s)`: `s` occurs as a contiguous substring of `t`. -/
def jsIncludes (t s : List Char) : Bool :=
  match t with
  | [] => s.isEmpty
  | c :: rest => s.isPrefixOf (c :: rest) || jsIncludes rest s

/-- `t.startsWith(s)`: `s` is a prefix of `t`. -/
def jsStartsWith (t s : List Char) : Bool := s.isPrefixOf t

/-! ## `levenshteinDistance` (fuzzyMatch.ts, lines 35–61)

The source fills a DP matrix row by row; `matrix[i][j]` is the edit
distance between the first `i` characters of `b` and the first `j`
characters of `a`.  We embed the same row-by-row computation. -/

/-- Compute the tail of the next DP row.  `rest` are the remaining
characters of `a`; `prev` the remaining entries of the previous row
(aligned so its head is the entry directly above the cell being
computed); `diag` the previous row's entry up-left of the current cell;
`left` the entry just written in the current row. -/
def levRowGo (y : Char) : List Char → List Nat → Nat → Nat → List Nat
  | [], _, _, _ => []
  | _ :: _, [], _, _ => []
  | x :: rest, p :: ps, diag, left =>
    let cur := if x = y then diag else Nat.min (Nat.min diag p) left + 1
    cur :: levRowGo y rest ps p cur

/-- One row of the Levenshtein DP matrix from the previous row. -/
def levNextRow (a : List Char) (prev : List Nat) (y : Char) : List Nat :=
  match prev with
  | [] => []
  | p0 :: rest =>
    let first := p0 + 1
    first :: levRowGo y a rest p0 first

/-- `levenshteinDistance(a, b)` from fuzzyMatch.ts: row-by-row DP. -/
def levenshteinDistance (a b : List Char) : Nat :=
  let row0 : List Nat := List.range (a.length + 1)
  let lastRow := b.foldl (levNextRow a) row0
  lastRow.getLast?.getD 0

/-! ## `fuzzyMatch` (fuzzyMatch.ts, lines 10–29)

Note the order of the branches in the source: the substring test
(score 80) is executed *before* the prefix test (score 90). -/

/-- `fuzzyMatch(search, target)` scoring, exactly in source order. -/
def fuzzyMatch (search target : List Char) : ℚ :=
  let searchLower := jsTrim (jsToLower search)
  let targetLower := jsTrim (jsToLower target)
  if searchLower = targetLower then 100
  else if jsIncludes targetLower searchLower then 80
  else if jsStartsWith targetLower searchLower then 90
  else
    let maxLen : ℚ := max searchLower.length targetLower.length
    let distance : ℚ := levenshteinDistance searchLower targetLower
    ((maxLen - distance) / maxLen) * 70

/-! ## `findBestMatch` (fuzzyMatch.ts, lines 67–89) -/

/-- Result record of `findBestMatch`. -/
structure MatchResult (T : Type) where
  item : T
  score : ℚ
deriving DecidableEq, Repr

/-- The loop of `findBestMatch`: fold the candidate list, keeping the
strictly best score seen so far (`score > bestScore`). -/
def findBestLoop {T : Type} (search : List Char) (getName : T → List Char) :
    List T → Option T × ℚ → Option T × ℚ
  | [], acc => acc
  | item :: rest, (bestMatch, bestScore) =>
    let score := fuzzyMatch search (getName item)
    if score > bestScore then findBestLoop search getName rest (some item, score)
    else findBestLoop search getName rest (bestMatch, bestScore)

/-- `findBestMatch(search, items, getName, minScore)` from fuzzyMatch.ts. -/
def findBestMatch {T : Type} (search : List Char) (items : List T)
    (getName : T → List Char) (minScore : ℚ) : Option (MatchResult T) :=
  let r := findBestLoop search getName items (none, 0)
  match r with
  | (none, _) => none
  | (some item, bestScore) =>
    if bestScore < minScore then none else some ⟨item, bestScore⟩

example : levenshteinDistance "kitten".toList "sitting".toList = 3 := by decide
example : fuzzyMatch "ein".toList "einstein".toList = 80 := by decide
example : fuzzyMatch "einstein".toList "Einstein".toList = 100 := by decide

/-! ## Token issuer / verifier (fuzzyMatch.ts related doc, lines 139–199)

The Node built-ins are kept abstract: `hmacHex secret m` stands for
`createHmac('sha256', secret).update(m).digest('hex')`, and
`enc` / `dec` stand for `Buffer.from(s).toString('base64url')` and
`Buffer.from(token, 'base64url').toString()`.  Theorems assume only
the properties of those built-ins they need (hex digests are 64
colon-free characters; decoding inverts encoding). -/

/-- Environment of Node built-ins used by the token code, with the
signing secret already fixed (the module caches it on first access). -/
structure TokenEnv where
  hmacHex : List Char → List Char
  enc : List Char → List Char
  dec : List Char → List Char

/-- `String.prototype.split(':')` : split into segments at every
occurrence of the separator; always returns at least one segment. -/
def jsSplit (sep : Char) : List Char → List (List Char)
  | [] => [[]]
  | c :: rest =>
    let r := jsSplit sep rest
    if c = sep then [] :: r
    else
      match r with
      | [] => [[c]]
      | seg :: segs => (c :: seg) :: segs

/-- Value of a digit character. -/
def digitVal (c : Char) : Nat := c.toNat - '0'.toNat

/-- Longest leading run of decimal digits, as a number; `none` when the
run is empty (JS `parseInt` then yields `NaN`). -/
def digitsPrefixVal (s : List Char) : Option Nat :=
  let ds := s.takeWhile Char.isDigit
  if ds.isEmpty then none
  else some (ds.foldl (fun acc c => acc * 10 + digitVal c) 0)

/-- `parseInt(s, 10)`: skip leading whitespace, optional sign, then the
longest digit prefix; `none` models `NaN`. -/
def jsParseInt (s : List Char) : Option Int :=
  let t := s.dropWhile jsIsSpace
  match t with
  | '-' :: rest => (digitsPrefixVal rest).map (fun n => -(n : Int))
  | '+' :: rest => (digitsPrefixVal rest).map (fun n => (n : Int))
  | _ => (digitsPrefixVal t).map (fun n => (n : Int))

/-- `generateUserDiscoveryToken(userId)` (lines 139–146): sign the id,
keep the first 32 hex characters, encode `userId:signature`. -/
def generateUserDiscoveryToken (env : TokenEnv) (userId : List Char) : List Char :=
  let payload := userId
  let signature := (env.hmacHex payload).take 32
  env.enc (payload ++ ':' :: signature)

/-- The three-part (legacy, with expiry) branch of verification:
`Date.now() > expiry` is false when `parseInt` returned `NaN`. -/
def legacyExpired (now : Int) (expiryStr : List Char) : Bool :=
  match jsParseInt expiryStr with
  | some e => now > e
  | none => false

/-- `verifyUserDiscoveryToken(token)` (lines 157–199).  Decode, split
on `:`, then dispatch on the number of parts exactly as the source
does; `none` models a `null` return. -/
def verifyUserDiscoveryToken (env : TokenEnv) (now : Int) (token : List Char) :
    Option (List Char) :=
  let decoded := env.dec token
  let parts := jsSplit ':' decoded
  match parts with
  | [uid, expiryStr, sig] =>
    if legacyExpired now expiryStr then none
    else
      let expectedPayload := uid ++ ':' :: expiryStr
      let expectedSignature := (env.hmacHex expectedPayload).take 16
      if sig ≠ expectedSignature then none else some uid
  | [uid, sig] =>
    let sigLength := if sig.length ≤ 16 then 16 else 32
    let expectedSignature := (env.hmacHex uid).take sigLength
    if sig ≠ expectedSignature then none else some uid
  | _ => none

/-- A concrete environment: a constant (but well-shaped) digest and the
identity transport encoding. -/
def tokenEnv0 : TokenEnv :=
  { hmacHex := fun _ => List.replicate 64 'a'
    enc := fun s => s
    dec := fun s => s }

example :
    verifyUserDiscoveryToken tokenEnv0 0
      (generateUserDiscoveryToken tokenEnv0 "alice".toList) = some "alice".toList := by
  decide

example :
    verifyUserDiscoveryToken tokenEnv0 0
      (generateUserDiscoveryToken tokenEnv0 "a:b".toList) = none := by
  decide

/-! ## Rate limiter (middleware/rateLimit.ts)

JS `Map`s are embedded as association lists: `set` replaces the first
binding of the key in place (or appends), `get` returns the first
binding.  `Date.now()` is the explicit `now` argument. -/

/-- `Map.prototype.get`. -/
def mapGet {β : Type} (m : List (String × β)) (k : String) : Option β :=
  match m with
  | [] => none
  | (k0, v0) :: rest => if k0 = k then some v0 else mapGet rest k

/-- `Map.prototype.set`. -/
def mapSet {β : Type} (m : List (String × β)) (k : String) (v : β) :
    List (String × β) :=
  match m with
  | [] => [(k, v)]
  | (k0, v0) :: rest =>
    if k0 = k then (k0, v) :: rest else (k0, v0) :: mapSet rest k v

/-- `RateLimitConfig` (rateLimit.ts, lines 11–20). -/
structure RateLimitConfig where
  unauthenticatedLimit : Nat
  authenticatedLimit : Nat
  windowMs : Int
  operationLimits : List (String × Nat)
deriving DecidableEq, Repr

/-- `RateLimitEntry` (rateLimit.ts, lines 39–43). -/
structure RateLimitEntry where
  count : Nat
  windowStart : Int
  operationCounts : List (String × Nat)
deriving DecidableEq, Repr

/-- The mutable entry table of the `RateLimiter` class. -/
structure RateLimiterState where
  entries : List (String × RateLimitEntry)
deriving DecidableEq, Repr

/-- Result record of `RateLimiter.check`. -/
structure RateCheckResult where
  allowed : Bool
  retryAfter : Int
  remaining : Int
  limit : Nat
deriving DecidableEq, Repr

/-- `Math.ceil(a / 1000)` on an integral number of milliseconds. -/
def ceilDiv1000 (a : Int) : Int := -((-a).fdiv 1000)

namespace RateLimiter

/-- `RateLimiter.getEntry` (lines 91–106): fetch the entry, replacing
it with a fresh window when absent or expired. -/
def getEntry (cfg : RateLimitConfig) (now : Int) (key : String)
    (s : RateLimiterState) : RateLimitEntry × RateLimiterState :=
  match mapGet s.entries key with
  | some entry =>
    if now - entry.windowStart > cfg.windowMs then
      let fresh : RateLimitEntry := ⟨0, now, []⟩
      (fresh, ⟨mapSet s.entries key fresh⟩)
    else (entry, s)
  | none =>
    let fresh : RateLimitEntry := ⟨0, now, []⟩
    (fresh, ⟨mapSet s.entries key fresh⟩)

/-- `RateLimiter.check` (lines 112–168).  The optional operation is
`Option String`; the JS truthiness guard `operation &&
this.config.operationLimits[operation]` requires a non-empty operation
name mapped to a non-zero limit. -/
def check (cfg : RateLimitConfig) (now : Int) (identifier : String)
    (isAuthenticated : Bool) (operation : Option String)
    (s : RateLimiterState) : RateCheckResult × RateLimiterState :=
  let (entry, s1) := getEntry cfg now identifier s
  let limit := if isAuthenticated then cfg.authenticatedLimit
               else cfg.unauthenticatedLimit
  if entry.count ≥ limit then
    let retryAfter := ceilDiv1000 (entry.windowStart + cfg.windowMs - now)
    ({ allowed := false, retryAfter := max 1 retryAfter, remaining := 0
       limit := limit }, s1)
  else
    let opDenied : Option RateCheckResult :=
      match operation with
      | none => none
      | some op =>
        if op = "" then none
        else
          match mapGet cfg.operationLimits op with
          | none => none
          | some opLimit =>
            if opLimit = 0 then none
            else
              let opCount := (mapGet entry.operationCounts op).getD 0
              if opCount ≥ opLimit then
                let retryAfter :=
                  ceilDiv1000 (entry.windowStart + cfg.windowMs - now)
                some { allowed := false, retryAfter := max 1 retryAfter
                       remaining := 0, limit := opLimit }
              else none
    match opDenied with
    | some r => (r, s1)
    | none =>
      ({ allowed := true, retryAfter := 0
         remaining := (limit : Int) - entry.count - 1, limit := limit }, s1)

/-- `RateLimiter.record` (lines 173–181): bump the aggregate counter
and, when an operation is named, its per-operation counter. -/
def record (cfg : RateLimitConfig) (now : Int) (identifier : String)
    (operation : Option String) (s : RateLimiterState) : RateLimiterState :=
  let (entry, s1) := getEntry cfg now identifier s
  let entry1 := { entry with count := entry.count + 1 }
  let entry2 :=
    match operation with
    | none => entry1
    | some op =>
      if op = "" then entry1
      else
        let opCount := (mapGet entry1.operationCounts op).getD 0
        { entry1 with
          operationCounts := mapSet entry1.operationCounts op (opCount + 1) }
  ⟨mapSet s1.entries identifier entry2⟩

end RateLimiter

/-! ## Circuit breaker (utils/circuitBreaker.ts)

The `CircuitBreaker` class instance becomes an explicit state record;
every method that reads `Date.now()` takes `now : Int`.  Methods that
mutate (`getState` may transition open → half-open) return the updated
record alongside their result. -/

/-- `CircuitState` (circuitBreaker.ts, line 12). -/
inductive CircuitState where
  | closed
  | opened
  | halfOpen
deriving DecidableEq, Repr

/-- `CircuitBreakerConfig` (lines 17–26), without the logging name. -/
structure CircuitBreakerConfig where
  failureThreshold : Nat
  resetTimeout : Int
  successThreshold : Nat
deriving DecidableEq, Repr

/-- Mutable fields of the `CircuitBreaker` class (lines 41–46). -/
structure Breaker where
  state : CircuitState
  failures : Nat
  successes : Nat
  lastFailureTime : Int
deriving DecidableEq, Repr

namespace CircuitBreaker

/-- The freshly constructed breaker. -/
def init : Breaker := ⟨.closed, 0, 0, 0⟩

/-- `transitionTo` (lines 107–126): set the state; entering `closed`
zeroes both counters, entering `half-open` zeroes the success counter,
entering `open` resets nothing. -/
def transitionTo (b : Breaker) (newState : CircuitState) : Breaker :=
  let b1 := { b with state := newState }
  match newState with
  | .closed => { b1 with failures := 0, successes := 0 }
  | .halfOpen => { b1 with successes := 0 }
  | .opened => b1

/-- `getState` (lines 55–64): lazily transition an open circuit to
half-open once the reset timeout has elapsed, then report the state. -/
def getState (cfg : CircuitBreakerConfig) (now : Int) (b : Breaker) :
    CircuitState × Breaker :=
  if b.state = .opened ∧ now - b.lastFailureTime ≥ cfg.resetTimeout then
    let b1 := transitionTo b .halfOpen
    (b1.state, b1)
  else (b.state, b)

/-- `isAllowed` (lines 69–72). -/
def isAllowed (cfg : CircuitBreakerConfig) (now : Int) (b : Breaker) :
    Bool × Breaker :=
  let (st, b1) := getState cfg now b
  (st = .closed ∨ st = .halfOpen, b1)

/-- `recordSuccess` (lines 77–87). -/
def recordSuccess (cfg : CircuitBreakerConfig) (b : Breaker) : Breaker :=
  match b.state with
  | .halfOpen =>
    let b1 := { b with successes := b.successes + 1 }
    if b1.successes ≥ cfg.successThreshold then transitionTo b1 .closed else b1
  | .closed => { b with failures := 0 }
  | .opened => b

/-- `recordFailure` (lines 92–102). -/
def recordFailure (cfg : CircuitBreakerConfig) (now : Int) (b : Breaker) :
    Breaker :=
  let b1 := { b with failures := b.failures + 1, lastFailureTime := now }
  match b1.state with
  | .halfOpen => transitionTo b1 .opened
  | .closed =>
    if b1.failures ≥ cfg.failureThreshold then transitionTo b1 .opened else b1
  | .opened => b1

/-- Result record of `getStats` (lines 138–150); `lastFailureTime` is
reported as `null` when still `0` (JS `this.lastFailureTime || null`). -/
structure Stats where
  state : CircuitState
  failures : Nat
  successes : Nat
  lastFailureTime : Option Int
deriving DecidableEq, Repr

/-- `getStats` (lines 138–150); note it calls `getState`, so it can
itself perform the lazy open → half-open transition. -/
def getStats (cfg : CircuitBreakerConfig) (now : Int) (b : Breaker) :
    Stats × Breaker :=
  let (st, b1) := getState cfg now b
  ({ state := st, failures := b1.failures, successes := b1.successes
     lastFailureTime := if b1.lastFailureTime = 0 then none
                        else some b1.lastFailureTime }, b1)

end CircuitBreaker

/-! ## `withCircuitBreaker` (circuitBreaker.ts, lines 173–208)

The wrapped `fn` is modelled by the outcome it would produce when
invoked (`Except E T`), and the optional fallback by the value it
would return.  The result distinguishes a normal value, a thrown
`CircuitBreakerOpenError`, and a rethrown operation error; the third
component records whether `fn` was invoked. -/

/-- Possible outcomes of `withCircuitBreaker`. -/
inductive CBResult (T E : Type) where
  | ok (v : T)
  | openError (circuitName : String)
  | err (e : E)
deriving DecidableEq, Repr

/-- `withCircuitBreaker(name, fn, options)` on an explicit breaker
state.  Mirrors the source: check `isAllowed` (which may lazily
transition); if disallowed return the fallback or throw
`CircuitBreakerOpenError` without invoking `fn`; otherwise invoke
`fn`, record the outcome, and on failure consult the fallback only if
present and `isAllowed()` now answers false. -/
def withCircuitBreaker {T E : Type} (name : String)
    (cfg : CircuitBreakerConfig) (now : Int) (b : Breaker)
    (fnOutcome : Except E T) (fallback : Option T) :
    CBResult T E × Breaker × Bool :=
  let (allowed, b1) := CircuitBreaker.isAllowed cfg now b
  if allowed then
    match fnOutcome with
    | .ok v => (.ok v, CircuitBreaker.recordSuccess cfg b1, true)
    | .error e =>
      let b2 := CircuitBreaker.recordFailure cfg now b1
      match fallback with
      | some v =>
        let (allowed2, b3) := CircuitBreaker.isAllowed cfg now b2
        if allowed2 then (.err e, b3, true) else (.ok v, b3, true)
      | none => (.err e, b2, true)
  else
    match fallback with
    | some v => (.ok v, b1, false)
    | none => (.openError name, b1, false)

/-- Iterate `recordFailure` over a list of failure times (left to
right), as consecutive failed calls would. -/
def CircuitBreaker.applyFailures (cfg : CircuitBreakerConfig)
    (ts : List Int) (b : Breaker) : Breaker :=
  ts.foldl (fun acc t => CircuitBreaker.recordFailure cfg t acc) b

/-- Iterate `recordSuccess` `n` times, as consecutive successful calls
would. -/
def CircuitBreaker.applySuccesses (cfg : CircuitBreakerConfig) :
    Nat → Breaker → Breaker
  | 0, b => b
  | n + 1, b => CircuitBreaker.applySuccesses cfg n
      (CircuitBreaker.recordSuccess cfg b)

/-! ## Creation deduplication (main.ts `createSparkTool.handler` +
`pendingCreations` module cache)

Cooperative single-threaded execution: code between two `await`s runs
atomically.  In the handler the lookup `pendingCreations.get(cacheKey)`
and, when it misses, the installation
`pendingCreations.set(cacheKey, creationPromise)` happen in one such
atomic stretch (lines 325–405 contain no `await` on that path), so the
`begin` event below models that whole stretch.  `finishExec` models the
executor resolving the shared promise with the created spark id and
deleting the pending record (lines 509–510); `finishWait` models a
waiter's `await pendingPromise` resuming with the resolved id
(line 329).  Spark ids are drawn from `Nat`. -/

/-- Where one caller of the creation handler stands. -/
inductive CallerPhase where
  | notStarted
  | executing
  | waiting
  | doneExec (sparkId : Nat)
  | doneWait (sparkId : Nat)
deriving DecidableEq, Repr

/-- Shared state for one cache key: whether `pendingCreations` holds
the key, the promise's resolution (if any), how many outbound creation
calls have been started, and each caller's phase. -/
structure DedupState where
  pending : Bool
  resolved : Option Nat
  outbound : Nat
  phases : List CallerPhase
deriving DecidableEq, Repr

/-- `n` callers, none started, no pending record for the key. -/
def dedupInit (n : Nat) : DedupState :=
  ⟨false, none, 0, List.replicate n .notStarted⟩

/-- Scheduler events: caller `c` runs its first atomic stretch; the
executor completes its outbound call with spark id `v`; a waiter's
`await` resumes. -/
inductive DedupEvent where
  | enter (c : Nat)
  | finishExec (c : Nat) (v : Nat)
  | finishWait (c : Nat)
deriving DecidableEq, Repr

/-- One scheduler step; `none` when the event is not enabled. -/
def dedupStep (s : DedupState) (e : DedupEvent) : Option DedupState :=
  match e with
  | .enter c =>
    match s.phases[c]? with
    | some .notStarted =>
      if s.pending then some { s with phases := s.phases.set c .waiting }
      else
        some { s with pending := true, outbound := s.outbound + 1
                      phases := s.phases.set c .executing }
    | _ => none
  | .finishExec c v =>
    match s.phases[c]? with
    | some .executing =>
      some { s with pending := false, resolved := some v
                    phases := s.phases.set c (.doneExec v) }
    | _ => none
  | .finishWait c =>
    match s.phases[c]? with
    | some .waiting =>
      match s.resolved with
      | some v => some { s with phases := s.phases.set c (.doneWait v) }
      | none => none
    | _ => none

/-- Run a whole schedule. -/
def dedupRun (s : DedupState) : List DedupEvent → Option DedupState
  | [] => some s
  | e :: es =>
    match dedupStep s e with
    | some s1 => dedupRun s1 es
    | none => none

/-- Is this an `enter` event? -/
def isEnterEvent : DedupEvent → Bool
  | .enter _ => true
  | _ => false

/-- Has this caller returned? -/
def isDonePhase : CallerPhase → Bool
  | .doneExec _ => true
  | .doneWait _ => true
  | _ => false

/-- The claim's scenario: every caller begins before any caller
completes, i.e. no `enter` event follows a `finishExec` event. -/
def entersPrecedeCompletion : List DedupEvent → Bool
  | [] => true
  | .finishExec _ _ :: es => es.all (fun e => !isEnterEvent e)
  | _ :: es => entersPrecedeCompletion es

/-- The coalescing invariant.  Before the promise resolves: the
outbound-call count matches the pending flag, a pending record means
exactly one executing caller, no pending record means nobody is
executing or waiting, and nobody is done.  After it resolves with `v`:
the record is gone, exactly one outbound call was made, nobody is
executing, exactly one caller finished as the executor (with id `v`),
and every waiter that finished observed the same `v`. -/
def DedupInv (s : DedupState) : Prop :=
  (s.resolved = none →
    s.outbound = (if s.pending then 1 else 0) ∧
    (s.pending = true →
      ∃ j : Nat, s.phases[j]? = some CallerPhase.executing ∧
        ∀ i : Nat, i ≠ j → s.phases[i]? ≠ some CallerPhase.executing) ∧
    (s.pending = false →
      ∀ i : Nat, s.phases[i]? ≠ some CallerPhase.executing ∧
        s.phases[i]? ≠ some CallerPhase.waiting) ∧
    (∀ (i v : Nat), s.phases[i]? ≠ some (CallerPhase.doneExec v) ∧
      s.phases[i]? ≠ some (CallerPhase.doneWait v))) ∧
  (∀ v : Nat, s.resolved = some v →
    s.pending = false ∧ s.outbound = 1 ∧
    (∀ i : Nat, s.phases[i]? ≠ some CallerPhase.executing) ∧
    (∃ j : Nat, s.phases[j]? = some (CallerPhase.doneExec v) ∧
      ∀ i : Nat, i ≠ j → ∀ w : Nat,
        s.phases[i]? ≠ some (CallerPhase.doneExec w)) ∧
    (∀ (i w : Nat), s.phases[i]? = some (CallerPhase.doneWait w) → w = v))

/-- Schedule constraint threaded through a run: before the promise has
resolved the trace must keep all its `enter`s ahead of the completion;
afterwards no `enter` may occur at all (the claim's scenario: all `N`
callers begin before any of them completes). -/
def DedupSchedOK (s : DedupState) (tr : List DedupEvent) : Prop :=
  if s.resolved.isSome then tr.all (fun e => !isEnterEvent e) = true
  else entersPrecedeCompletion tr = true

example :
    dedupRun (dedupInit 3)
      [.enter 0, .enter 1, .enter 2, .finishExec 0 42, .finishWait 1,
       .finishWait 2] =
    some ⟨false, some 42, 1, [.doneExec 42, .doneWait 42, .doneWait 42]⟩ := by
  decide

/-! # Theorems -/

/-! ## Helper lemmas about `jsSplit` -/

theorem jsSplit_of_not_mem {sep : Char} {a : List Char} (h : sep ∉ a) :
    jsSplit sep a = [a] := by
  induction a with
  | nil => rfl
  | cons c rest ih =>
    have hc : c ≠ sep := fun hcs => h (hcs ▸ List.mem_cons_self c rest)
    have hr : sep ∉ rest := fun hm => h (List.mem_cons_of_mem c hm)
    simp [jsSplit, hc, ih hr]

theorem jsSplit_append_sep {sep : Char} {a b : List Char} (h : sep ∉ a) :
    jsSplit sep (a ++ sep :: b) = a :: jsSplit sep b := by
  induction a with
  | nil =>
    simp [jsSplit]
  | cons c rest ih =>
    have hc : c ≠ sep := fun hcs => h (hcs ▸ List.mem_cons_self c rest)
    have hr : sep ∉ rest := fun hm => h (List.mem_cons_of_mem c hm)
    have hne : jsSplit sep (rest ++ sep :: b) = rest :: jsSplit sep b := ih hr
    simp [jsSplit, hc, hne]

/-! ## C1 -/

/-- C1: the spec's priority order (exact = 100, starts-with = 90,
substring = 80) is broken by the code: `fuzzyMatch` tests substring
containment *before* the prefix test, so a non-exact prefix match such
as query `"ein"` against candidate `"einstein"` scores 80, not 90 —
even though the prefix test would succeed.  The 90-branch of the
source is unreachable (every prefix is a substring). -/
theorem fuzzyMatch_prefix_scores_80 :
    fuzzyMatch "ein".toList "einstein".toList = 80 ∧
    jsStartsWith (jsTrim (jsToLower "einstein".toList))
      (jsTrim (jsToLower "ein".toList)) = true ∧
    jsTrim (jsToLower "ein".toList) ≠ jsTrim (jsToLower "einstein".toList) := by
  decide

/-! ## C2 -/

/-- C2 counterexample: for the principal id `"a:b"` (with a perfectly
well-behaved digest and transport encoding) the round-trip fails: the
decoded token splits into three parts, is routed to the
legacy-with-expiry branch, and is rejected, so verification returns
`none` rather than the id. -/
theorem token_roundtrip_counterexample :
    verifyUserDiscoveryToken tokenEnv0 0
      (generateUserDiscoveryToken tokenEnv0 "a:b".toList) = none := by
  decide

/-- C2 (amended): for every principal id that does not contain `':'`,
verifying a freshly issued token returns that id, assuming the same
signing secret is in effect for both calls (the digest function is
fixed in the environment), digests are 64 colon-free hex characters,
and base64url decoding inverts encoding. -/
theorem token_roundtrip (env : TokenEnv) (userId : List Char) (now : Int)
    (hlen : ∀ s, (env.hmacHex s).length = 64)
    (hcolon : ∀ s, ':' ∉ env.hmacHex s)
    (hdec : ∀ s, env.dec (env.enc s) = s)
    (hid : ':' ∉ userId) :
    verifyUserDiscoveryToken env now
      (generateUserDiscoveryToken env userId) = some userId := by
  unfold generateUserDiscoveryToken verifyUserDiscoveryToken
  rw [hdec]
  have hsig : ':' ∉ (env.hmacHex userId).take 32 := fun hm =>
    hcolon userId (List.mem_of_mem_take hm)
  have hslen : ((env.hmacHex userId).take 32).length = 32 := by
    rw [List.length_take, hlen]; decide
  simp only [List.cons_append, List.append_assoc, jsSplit_append_sep hid,
    jsSplit_of_not_mem hsig]
  simp [hslen]

/-- C2 witness: the amended round-trip at the concrete id `"alice"`
in the concrete environment `tokenEnv0`. -/
theorem token_roundtrip_witness :
    verifyUserDiscoveryToken tokenEnv0 5
      (generateUserDiscoveryToken tokenEnv0 "alice".toList) =
      some "alice".toList :=
  token_roundtrip tokenEnv0 "alice".toList 5
    (fun s => by show (List.replicate 64 'a').length = 64; decide)
    (fun s => by show ':' ∉ List.replicate 64 'a'; decide)
    (fun s => rfl) (by decide)

/-! ## C8 -/

/-- C8: verification tolerates the legacy encodings.  A three-part
token `userId:expiry:tag` whose parsed expiry has not passed and whose
16-character tag matches is accepted and yields its userId; a
three-part token whose parsed expiry has passed is rejected; a
two-part token is checked against the 16- or 32-character truncation
of the digest according to its own tag's length; and a token decoding
to any other number of parts is invalid.  The embedding is a total
function (never throws) and only ever returns the id carried by the
token (never guesses). -/
theorem verify_token_legacy_shapes (env : TokenEnv) (now : Int)
    (hdec : ∀ s, env.dec (env.enc s) = s) :
    (∀ uid expiryStr sig e, ':' ∉ uid → ':' ∉ expiryStr → ':' ∉ sig →
      jsParseInt expiryStr = some e → now ≤ e →
      sig = (env.hmacHex (uid ++ ':' :: expiryStr)).take 16 →
      verifyUserDiscoveryToken env now
        (env.enc (uid ++ ':' :: expiryStr ++ ':' :: sig)) = some uid) ∧
    (∀ uid expiryStr sig e, ':' ∉ uid → ':' ∉ expiryStr → ':' ∉ sig →
      jsParseInt expiryStr = some e → now > e →
      verifyUserDiscoveryToken env now
        (env.enc (uid ++ ':' :: expiryStr ++ ':' :: sig)) = none) ∧
    (∀ uid sig, ':' ∉ uid → ':' ∉ sig →
      verifyUserDiscoveryToken env now (env.enc (uid ++ ':' :: sig)) =
        (if sig = (env.hmacHex uid).take (if sig.length ≤ 16 then 16 else 32)
         then some uid else none)) ∧
    (∀ decoded, (jsSplit ':' decoded).length ≠ 2 →
      (jsSplit ':' decoded).length ≠ 3 →
      verifyUserDiscoveryToken env now (env.enc decoded) = none) := by
  refine ⟨?_, ?_, ?_, ?_⟩
  · intro uid expiryStr sig e hu he hs hp hnow hsig
    have hexp : legacyExpired now expiryStr = false := by
      unfold legacyExpired
      rw [hp]
      simpa using by omega
    unfold verifyUserDiscoveryToken
    rw [hdec]
    simp only [List.cons_append, List.append_assoc, jsSplit_append_sep hu,
      jsSplit_append_sep he, jsSplit_of_not_mem hs]
    simp [hexp, hsig]
  · intro uid expiryStr sig e hu he hs hp hnow
    have hexp : legacyExpired now expiryStr = true := by
      unfold legacyExpired
      rw [hp]
      simpa using hnow
    unfold verifyUserDiscoveryToken
    rw [hdec]
    simp only [List.cons_append, List.append_assoc, jsSplit_append_sep hu,
      jsSplit_append_sep he, jsSplit_of_not_mem hs]
    simp [hexp]
  · intro uid sig hu hs
    unfold verifyUserDiscoveryToken
    rw [hdec]
    simp only [List.cons_append, List.append_assoc, jsSplit_append_sep hu,
      jsSplit_of_not_mem hs]
    by_cases hc : sig = (env.hmacHex uid).take (if sig.length ≤ 16 then 16 else 32)
    · rw [if_neg (not_not_intro hc), if_pos hc]
    · rw [if_pos hc, if_neg hc]
  · intro decoded h2 h3
    unfold verifyUserDiscoveryToken
    rw [hdec]
    rcases hp : jsSplit ':' decoded with _ | ⟨a, _ | ⟨b, _ | ⟨c, _ | d⟩⟩⟩ <;>
      simp_all [hp]

/-! ## C9 -/

/-- Invariant of the `findBestMatch` fold: the running best score only
grows and bounds every inspected score, and either the accumulator
never changed or it holds the earliest candidate attaining the final
(strictly improved) best score. -/
theorem findBestLoop_spec {T : Type} (search : List Char)
    (getName : T → List Char) (items : List T) :
    ∀ (bm : Option T) (bs : ℚ),
      bs ≤ (findBestLoop search getName items (bm, bs)).2 ∧
      (∀ x ∈ items,
        fuzzyMatch search (getName x) ≤
          (findBestLoop search getName items (bm, bs)).2) ∧
      (findBestLoop search getName items (bm, bs) = (bm, bs) ∨
        ∃ pre x post, items = pre ++ x :: post ∧
          (findBestLoop search getName items (bm, bs)).1 = some x ∧
          (findBestLoop search getName items (bm, bs)).2 =
            fuzzyMatch search (getName x) ∧
          bs < fuzzyMatch search (getName x) ∧
          ∀ y ∈ pre,
            fuzzyMatch search (getName y) < fuzzyMatch search (getName x)) := by
  induction items with
  | nil =>
    intro bm bs
    refine ⟨le_refl _, ?_, Or.inl rfl⟩
    intro x hx
    exact absurd hx (List.not_mem_nil x)
  | cons item rest ih =>
    intro bm bs
    by_cases hgt : fuzzyMatch search (getName item) > bs
    · have hstep :
          findBestLoop search getName (item :: rest) (bm, bs) =
            findBestLoop search getName rest
              (some item, fuzzyMatch search (getName item)) := by
        simp [findBestLoop, hgt]
      obtain ⟨h1, h2, h3⟩ := ih (some item) (fuzzyMatch search (getName item))
      rw [hstep]
      refine ⟨le_of_lt (lt_of_lt_of_le hgt h1), ?_, ?_⟩
      · intro x hx
        rcases List.mem_cons.mp hx with hx | hx
        · exact hx ▸ h1
        · exact h2 x hx
      · rcases h3 with h3 | ⟨pre, x, post, hrest, hr1, hr2, hlt, hpre⟩
        · refine Or.inr ⟨[], item, rest, rfl, ?_, ?_, hgt, ?_⟩
          · rw [h3]
          · rw [h3]
          · intro y hy
            exact absurd hy (List.not_mem_nil y)
        · refine Or.inr ⟨item :: pre, x, post, by rw [hrest]; rfl,
            hr1, hr2, lt_trans hgt hlt, ?_⟩
          intro y hy
          rcases List.mem_cons.mp hy with hy | hy
          · exact hy ▸ hlt
          · exact hpre y hy
    · have hstep :
          findBestLoop search getName (item :: rest) (bm, bs) =
            findBestLoop search getName rest (bm, bs) := by
        simp [findBestLoop, hgt]
      obtain ⟨h1, h2, h3⟩ := ih bm bs
      rw [hstep]
      refine ⟨h1, ?_, ?_⟩
      · intro x hx
        rcases List.mem_cons.mp hx with hx | hx
        · exact hx ▸ le_trans (not_lt.mp hgt) h1
        · exact h2 x hx
      · rcases h3 with h3 | ⟨pre, x, post, hrest, hr1, hr2, hlt, hpre⟩
        · exact Or.inl h3
        · refine Or.inr ⟨item :: pre, x, post, by rw [hrest]; rfl,
            hr1, hr2, hlt, ?_⟩
          intro y hy
          rcases List.mem_cons.mp hy with hy | hy
          · exact hy ▸ lt_of_le_of_lt (not_lt.mp hgt) hlt
          · exact hpre y hy

/-- C9 (amended): `findBestMatch` returns the candidate with the
highest fuzzy score, resolving ties in favor of the
earliest-encountered candidate, and returns `none` when the best score
is below the minimum — or when no candidate has a strictly positive
score (the fold starts its best score at 0 and only strict
improvements are kept, so an all-zero field yields `none` even for
`minScore = 0`).  In particular, searching `"einstein"` among
`["Einstein", "Albert Einstein", "Steve Jobs"]` with minimum 50
returns `"Einstein"` with score 100. -/
theorem fuzzyMatch_else (s t : List Char)
    (h1 : ¬ jsTrim (jsToLower s) = jsTrim (jsToLower t))
    (h2 : jsIncludes (jsTrim (jsToLower t)) (jsTrim (jsToLower s)) = false)
    (h3 : jsStartsWith (jsTrim (jsToLower t)) (jsTrim (jsToLower s)) = false) :
    fuzzyMatch s t =
      ((max ((jsTrim (jsToLower s)).length : ℚ)
          ((jsTrim (jsToLower t)).length : ℚ) -
        (levenshteinDistance (jsTrim (jsToLower s))
          (jsTrim (jsToLower t)) : ℚ)) /
        max ((jsTrim (jsToLower s)).length : ℚ)
          ((jsTrim (jsToLower t)).length : ℚ)) * 70 := by
  unfold fuzzyMatch
  simp [h1, h2, h3]

theorem findBestMatch_spec :
    (∀ (T : Type) (search : List Char) (items : List T)
      (getName : T → List Char) (minScore : ℚ),
      match findBestMatch search items getName minScore with
      | some r =>
          minScore ≤ r.score ∧ 0 < r.score ∧
          fuzzyMatch search (getName r.item) = r.score ∧
          (∀ x ∈ items, fuzzyMatch search (getName x) ≤ r.score) ∧
          ∃ pre post, items = pre ++ r.item :: post ∧
            ∀ y ∈ pre, fuzzyMatch search (getName y) < r.score
      | none =>
          ∀ x ∈ items, fuzzyMatch search (getName x) ≤ 0 ∨
            fuzzyMatch search (getName x) < minScore) ∧
    findBestMatch "einstein".toList
      ["Einstein".toList, "Albert Einstein".toList, "Steve Jobs".toList]
      (fun s => s) 50 = some ⟨"Einstein".toList, 100⟩ := by
  constructor
  · intro T search items getName minScore
    obtain ⟨h1, h2, h3⟩ := findBestLoop_spec search getName items none 0
    rcases hr : findBestLoop search getName items (none, 0) with ⟨bm, bs⟩
    rw [hr] at h1 h2 h3
    rcases bm with _ | item
    · have hres : findBestMatch search items getName minScore = none := by
        unfold findBestMatch
        rw [hr]
      rw [hres]
      intro x hx
      left
      rcases h3 with h3 | ⟨pre, x', post, hitems, hr1, hr2, hpos, hpre⟩
      · have hbs : bs = 0 := by
          have := congrArg Prod.snd h3
          simpa using this
        exact le_of_le_of_eq (h2 x hx) hbs
      · exact absurd hr1 (by simp)
    · by_cases hmin : bs < minScore
      · have hres : findBestMatch search items getName minScore = none := by
          unfold findBestMatch
          rw [hr]
          show (if bs < minScore then none
                else some (⟨item, bs⟩ : MatchResult T)) = none
          rw [if_pos hmin]
        rw [hres]
        intro x hx
        right
        exact lt_of_le_of_lt (h2 x hx) hmin
      · have hres : findBestMatch search items getName minScore =
            some ⟨item, bs⟩ := by
          unfold findBestMatch
          rw [hr]
          show (if bs < minScore then none
                else some (⟨item, bs⟩ : MatchResult T)) = some ⟨item, bs⟩
          rw [if_neg hmin]
        rw [hres]
        rcases h3 with h3 | ⟨pre, x', post, hitems, hr1, hr2, hpos, hpre⟩
        · exact absurd (congrArg Prod.fst h3) (by simp)
        · have heq : x' = item := by
            have := hr1
            simp at this
            exact this.symm
          subst heq
          have hbs : bs = fuzzyMatch search (getName x') := by
            simpa using hr2
          refine ⟨not_lt.mp hmin, ?_, ?_, ?_, pre, post, hitems, ?_⟩
          · show (0 : ℚ) < bs
            rw [hbs]
            exact hpos
          · show fuzzyMatch search (getName x') = bs
            exact hbs.symm
          · intro x hx
            exact h2 x hx
          · intro y hy
            show fuzzyMatch search (getName y) < bs
            rw [hbs]
            exact hpre y hy
  · have s1 : fuzzyMatch "einstein".toList "Einstein".toList = 100 := by decide
    have s2 : fuzzyMatch "einstein".toList "Albert Einstein".toList = 80 := by
      decide
    have s3 : fuzzyMatch "einstein".toList "Steve Jobs".toList = 7 := by
      rw [fuzzyMatch_else _ _ (by decide) (by decide) (by decide),
        show jsTrim (jsToLower "einstein".toList) = "einstein".toList
          from by decide,
        show jsTrim (jsToLower "Steve Jobs".toList) = "steve jobs".toList
          from by decide,
        show levenshteinDistance "einstein".toList "steve jobs".toList = 9
          from by decide,
        show ("einstein".toList.length = 8) from by decide,
        show ("steve jobs".toList.length = 10) from by decide]
      norm_num [max_def]
    simp only [findBestMatch, findBestLoop, s1, s2, s3]
    norm_num

/-- C9 counterexample (to the claim as universally stated): with
minimum score 0, a candidate list whose only candidate scores 0 makes
`findBestMatch` return `none`, although the best score (0) is not
below the minimum — the claim would demand that candidate be
returned. -/
theorem findBestMatch_zero_counterexample :
    findBestMatch "a".toList ["b".toList] (fun s => s) 0 = none ∧
    fuzzyMatch "a".toList "b".toList = 0 := by
  have s0 : fuzzyMatch "a".toList "b".toList = 0 := by
    rw [fuzzyMatch_else _ _ (by decide) (by decide) (by decide),
      show jsTrim (jsToLower "a".toList) = "a".toList from by decide,
      show jsTrim (jsToLower "b".toList) = "b".toList from by decide,
      show levenshteinDistance "a".toList "b".toList = 1 from by decide,
      show ("a".toList.length = 1) from by decide,
      show ("b".toList.length = 1) from by decide]
    norm_num [max_def]
  refine ⟨?_, s0⟩
  simp only [findBestMatch, findBestLoop, s0]
  norm_num

/-- C9 witness: the concrete Einstein lookup, via the main theorem. -/
theorem findBestMatch_spec_witness :
    findBestMatch "einstein".toList
      ["Einstein".toList, "Albert Einstein".toList, "Steve Jobs".toList]
      (fun s => s) 50 = some ⟨"Einstein".toList, 100⟩ :=
  findBestMatch_spec.2

/-- C8 witness: the legacy three-part shape accepted at a concrete
non-expired token in the concrete environment `tokenEnv0`. -/
theorem verify_token_legacy_shapes_witness :
    verifyUserDiscoveryToken tokenEnv0 0
      (tokenEnv0.enc ("u".toList ++ ':' :: "99".toList ++ ':' ::
        List.replicate 16 'a')) = some "u".toList :=
  (verify_token_legacy_shapes tokenEnv0 0 (fun s => rfl)).1
    "u".toList "99".toList (List.replicate 16 'a') 99
    (by decide) (by decide) (by decide) (by decide) (by decide) (by decide)

/-! ## Rate limiter lemmas (C3, C10) -/

theorem mapGet_mapSet_self {β : Type} (m : List (String × β)) (k : String)
    (v : β) : mapGet (mapSet m k v) k = some v := by
  induction m with
  | nil => simp [mapSet, mapGet]
  | cons kv rest ih =>
    rcases kv with ⟨k0, v0⟩
    by_cases hk : k0 = k
    · simp [mapSet, mapGet, hk]
    · simp [mapSet, mapGet, hk, ih]

theorem mapGet_mapSet_ne {β : Type} (m : List (String × β)) (k k' : String)
    (v : β) (h : k' ≠ k) : mapGet (mapSet m k v) k' = mapGet m k' := by
  have hkk : ¬ k = k' := fun he => h he.symm
  induction m with
  | nil => simp [mapSet, mapGet, hkk]
  | cons kv rest ih =>
    rcases kv with ⟨k0, v0⟩
    by_cases hk : k0 = k
    · subst hk
      simp [mapSet, mapGet, hkk]
    · by_cases hk' : k0 = k'
      · subst hk'
        simp [mapSet, mapGet, hk]
      · simp [mapSet, mapGet, hk, hk', ih]

/-- `getEntry` on an identifier whose window is still active returns
the stored entry and leaves the table untouched. -/
theorem getEntry_active (cfg : RateLimitConfig) (now : Int) (key : String)
    (s : RateLimiterState) (e : RateLimitEntry)
    (hget : mapGet s.entries key = some e)
    (hactive : now - e.windowStart ≤ cfg.windowMs) :
    RateLimiter.getEntry cfg now key s = (e, s) := by
  unfold RateLimiter.getEntry
  rw [hget]
  simp [not_lt.mpr hactive]

/-! ## C3 -/

/-- C3: for every identifier, once the stored aggregate count has
reached the applicable aggregate limit (authenticated or
unauthenticated) and while the window is still active, `check` denies
with `allowed = false`, `remaining = 0` and `retryAfter ≥ 1` second.
The embedding is a total function: the denial is the returned value,
nothing is thrown. -/
theorem check_denies_at_limit (cfg : RateLimitConfig) (now : Int)
    (identifier : String) (isAuthenticated : Bool)
    (operation : Option String) (s : RateLimiterState) (e : RateLimitEntry)
    (hget : mapGet s.entries identifier = some e)
    (hactive : now - e.windowStart ≤ cfg.windowMs)
    (hcount : e.count ≥ (if isAuthenticated then cfg.authenticatedLimit
                         else cfg.unauthenticatedLimit)) :
    (RateLimiter.check cfg now identifier isAuthenticated operation s).1.allowed
        = false ∧
    (RateLimiter.check cfg now identifier isAuthenticated operation s).1.remaining
        = 0 ∧
    1 ≤ (RateLimiter.check cfg now identifier isAuthenticated operation
          s).1.retryAfter := by
  unfold RateLimiter.check
  rw [getEntry_active cfg now identifier s e hget hactive]
  simp [hcount]

/-- C3 witness: an authenticated identifier with limit 3 and count 3
inside an active one-minute window is denied with `remaining = 0` and
a positive retry-after. -/
theorem check_denies_at_limit_witness :
    (RateLimiter.check ⟨100, 3, 60000, []⟩ 1000 "alice" true none
        ⟨[("alice", ⟨3, 0, []⟩)]⟩).1.allowed = false ∧
    (RateLimiter.check ⟨100, 3, 60000, []⟩ 1000 "alice" true none
        ⟨[("alice", ⟨3, 0, []⟩)]⟩).1.remaining = 0 ∧
    1 ≤ (RateLimiter.check ⟨100, 3, 60000, []⟩ 1000 "alice" true none
        ⟨[("alice", ⟨3, 0, []⟩)]⟩).1.retryAfter :=
  check_denies_at_limit ⟨100, 3, 60000, []⟩ 1000 "alice" true none
    ⟨[("alice", ⟨3, 0, []⟩)]⟩ ⟨3, 0, []⟩ (by decide) (by decide) (by decide)

/-! ## C10 -/

/-- C10: within one active window, `check` consumes no quota — it
leaves the limiter state (aggregate count and every per-operation
count) untouched, and repeated checks agree on `allowed`, `remaining`
and `limit` (only the denial's `retryAfter` depends on the clock);
`record` increments the aggregate count by one and, when a (truthy)
operation is given, that operation's counter by one, leaving every
other identifier's entry and every other operation's counter
unchanged. -/
theorem check_pure_record_increments :
    (∀ (cfg : RateLimitConfig) (now : Int) (identifier : String)
      (isAuthenticated : Bool) (operation : Option String)
      (s : RateLimiterState) (e : RateLimitEntry),
      mapGet s.entries identifier = some e →
      now - e.windowStart ≤ cfg.windowMs →
      (RateLimiter.check cfg now identifier isAuthenticated operation s).2
        = s) ∧
    (∀ (cfg : RateLimitConfig) (now1 now2 : Int) (identifier : String)
      (isAuthenticated : Bool) (operation : Option String)
      (s : RateLimiterState) (e : RateLimitEntry),
      mapGet s.entries identifier = some e →
      now1 - e.windowStart ≤ cfg.windowMs →
      now2 - e.windowStart ≤ cfg.windowMs →
      (RateLimiter.check cfg now1 identifier isAuthenticated operation
          s).1.allowed =
        (RateLimiter.check cfg now2 identifier isAuthenticated operation
          s).1.allowed ∧
      (RateLimiter.check cfg now1 identifier isAuthenticated operation
          s).1.remaining =
        (RateLimiter.check cfg now2 identifier isAuthenticated operation
          s).1.remaining ∧
      (RateLimiter.check cfg now1 identifier isAuthenticated operation
          s).1.limit =
        (RateLimiter.check cfg now2 identifier isAuthenticated operation
          s).1.limit) ∧
    (∀ (cfg : RateLimitConfig) (now : Int) (identifier op : String)
      (s : RateLimiterState) (e : RateLimitEntry),
      mapGet s.entries identifier = some e →
      now - e.windowStart ≤ cfg.windowMs →
      op ≠ "" →
      mapGet (RateLimiter.record cfg now identifier (some op) s).entries
          identifier =
        some ⟨e.count + 1, e.windowStart,
          mapSet e.operationCounts op
            ((mapGet e.operationCounts op).getD 0 + 1)⟩ ∧
      (∀ id', id' ≠ identifier →
        mapGet (RateLimiter.record cfg now identifier (some op) s).entries id'
          = mapGet s.entries id') ∧
      (∀ op', op' ≠ op →
        mapGet (mapSet e.operationCounts op
            ((mapGet e.operationCounts op).getD 0 + 1)) op'
          = mapGet e.operationCounts op')) ∧
    (∀ (cfg : RateLimitConfig) (now : Int) (identifier : String)
      (s : RateLimiterState) (e : RateLimitEntry),
      mapGet s.entries identifier = some e →
      now - e.windowStart ≤ cfg.windowMs →
      mapGet (RateLimiter.record cfg now identifier none s).entries identifier
        = some ⟨e.count + 1, e.windowStart, e.operationCounts⟩ ∧
      (∀ id', id' ≠ identifier →
        mapGet (RateLimiter.record cfg now identifier none s).entries id'
          = mapGet s.entries id')) := by
  refine ⟨?_, ?_, ?_, ?_⟩
  · intro cfg now identifier isAuthenticated operation s e hget hactive
    unfold RateLimiter.check
    rw [getEntry_active cfg now identifier s e hget hactive]
    by_cases hagg : e.count ≥ (if isAuthenticated then cfg.authenticatedLimit
        else cfg.unauthenticatedLimit)
    · simp [hagg]
    · rcases operation with _ | op
      · simp [hagg]
      · by_cases hop : op = ""
        · simp [hagg, hop]
        · rcases hm : mapGet cfg.operationLimits op with _ | l
          · simp [hagg, hop, hm]
          · by_cases hl : l = 0
            · simp [hagg, hop, hm, hl]
            · by_cases hoc : (mapGet e.operationCounts op).getD 0 ≥ l
              · simp [hagg, hop, hm, hl, hoc]
              · simp [hagg, hop, hm, hl, hoc]
  · intro cfg now1 now2 identifier isAuthenticated operation s e hget h1 h2
    unfold RateLimiter.check
    rw [getEntry_active cfg now1 identifier s e hget h1,
      getEntry_active cfg now2 identifier s e hget h2]
    by_cases hagg : e.count ≥ (if isAuthenticated then cfg.authenticatedLimit
        else cfg.unauthenticatedLimit)
    · simp [hagg]
    · rcases operation with _ | op
      · simp [hagg]
      · by_cases hop : op = ""
        · simp [hagg, hop]
        · rcases hm : mapGet cfg.operationLimits op with _ | l
          · simp [hagg, hop, hm]
          · by_cases hl : l = 0
            · simp [hagg, hop, hm, hl]
            · by_cases hoc : (mapGet e.operationCounts op).getD 0 ≥ l
              · simp [hagg, hop, hm, hl, hoc]
              · simp [hagg, hop, hm, hl, hoc]
  · intro cfg now identifier op s e hget hactive hop
    unfold RateLimiter.record
    rw [getEntry_active cfg now identifier s e hget hactive]
    refine ⟨?_, ?_, ?_⟩
    · simp [hop, mapGet_mapSet_self]
    · intro id' hid
      simp only [hop]
      simp [hop, mapGet_mapSet_ne _ _ _ _ hid]
    · intro op' hop'
      exact mapGet_mapSet_ne _ _ _ _ hop'
  · intro cfg now identifier s e hget hactive
    unfold RateLimiter.record
    rw [getEntry_active cfg now identifier s e hget hactive]
    refine ⟨?_, ?_⟩
    · simp [mapGet_mapSet_self]
    · intro id' hid
      simp [mapGet_mapSet_ne _ _ _ _ hid]

/-- C10 witness: a concrete active-window state — a repeated check
changes nothing and agrees across two instants, and one `record` with
an operation bumps exactly the two counters. -/
theorem check_pure_record_increments_witness :
    (RateLimiter.check ⟨100, 1000, 60000, [("op", 5)]⟩ 1000 "alice" true
        (some "op") ⟨[("alice", ⟨2, 0, [("op", 1)]⟩)]⟩).2 =
      ⟨[("alice", ⟨2, 0, [("op", 1)]⟩)]⟩ ∧
    mapGet (RateLimiter.record ⟨100, 1000, 60000, [("op", 5)]⟩ 1000 "alice"
        (some "op") ⟨[("alice", ⟨2, 0, [("op", 1)]⟩)]⟩).entries "alice" =
      some ⟨3, 0, [("op", 2)]⟩ :=
  ⟨(check_pure_record_increments.1 ⟨100, 1000, 60000, [("op", 5)]⟩ 1000
      "alice" true (some "op") ⟨[("alice", ⟨2, 0, [("op", 1)]⟩)]⟩
      ⟨2, 0, [("op", 1)]⟩ (by decide) (by decide)),
   by
    have h := (check_pure_record_increments.2.2.1 ⟨100, 1000, 60000,
        [("op", 5)]⟩ 1000 "alice" "op" ⟨[("alice", ⟨2, 0, [("op", 1)]⟩)]⟩
        ⟨2, 0, [("op", 1)]⟩ (by decide) (by decide) (by decide)).1
    rw [h]
    decide⟩

/-! ## Circuit breaker lemmas (C4) -/

theorem applyFailures_closed_lt (cfg : CircuitBreakerConfig) :
    ∀ (ts : List Int) (b : Breaker), b.state = .closed →
      b.failures + ts.length < cfg.failureThreshold →
      (CircuitBreaker.applyFailures cfg ts b).state = .closed ∧
      (CircuitBreaker.applyFailures cfg ts b).failures
        = b.failures + ts.length := by
  intro ts
  induction ts with
  | nil =>
    intro b hb hlt
    exact ⟨hb, by simp [CircuitBreaker.applyFailures]⟩
  | cons t rest ih =>
    intro b hb hlt
    have hstep : CircuitBreaker.applyFailures cfg (t :: rest) b =
        CircuitBreaker.applyFailures cfg rest
          (CircuitBreaker.recordFailure cfg t b) := by
      simp [CircuitBreaker.applyFailures]
    have hlt1 : b.failures + 1 < cfg.failureThreshold := by
      simp at hlt
      omega
    have hrec : CircuitBreaker.recordFailure cfg t b =
        { b with failures := b.failures + 1, lastFailureTime := t } := by
      unfold CircuitBreaker.recordFailure
      rw [hb]
      simp [hb, Nat.not_le.mpr hlt1]
    rw [hstep, hrec]
    have := ih { b with failures := b.failures + 1, lastFailureTime := t }
      (by simp [hb]) (by simp; simp at hlt; omega)
    refine ⟨this.1, ?_⟩
    rw [this.2]
    simp
    omega

theorem applyFailures_opens (cfg : CircuitBreakerConfig) :
    ∀ (ts : List Int) (b : Breaker), b.state = .closed →
      b.failures + ts.length = cfg.failureThreshold → ts ≠ [] →
      (CircuitBreaker.applyFailures cfg ts b).state = .opened ∧
      (CircuitBreaker.applyFailures cfg ts b).lastFailureTime ∈ ts := by
  intro ts
  induction ts with
  | nil => intro b hb heq hne; exact absurd rfl hne
  | cons t rest ih =>
    intro b hb heq hne
    have hstep : CircuitBreaker.applyFailures cfg (t :: rest) b =
        CircuitBreaker.applyFailures cfg rest
          (CircuitBreaker.recordFailure cfg t b) := by
      simp [CircuitBreaker.applyFailures]
    rcases rest with _ | ⟨t2, rest2⟩
    · have hth : b.failures + 1 = cfg.failureThreshold := by
        simp at heq
        omega
      have hrec : CircuitBreaker.recordFailure cfg t b =
          ⟨.opened, b.failures + 1, b.successes, t⟩ := by
        unfold CircuitBreaker.recordFailure
        rw [hb]
        simp [hb, Nat.le_of_eq hth.symm, CircuitBreaker.transitionTo]
      rw [hstep, hrec]
      exact ⟨rfl, by simp [CircuitBreaker.applyFailures]⟩
    · have hlt1 : b.failures + 1 < cfg.failureThreshold := by
        simp at heq
        omega
      have hrec : CircuitBreaker.recordFailure cfg t b =
          { b with failures := b.failures + 1, lastFailureTime := t } := by
        unfold CircuitBreaker.recordFailure
        rw [hb]
        simp [hb, Nat.not_le.mpr hlt1]
      rw [hstep, hrec]
      have := ih { b with failures := b.failures + 1, lastFailureTime := t }
        (by simp [hb]) (by simp; simp at heq; omega) (by simp)
      exact ⟨this.1, List.mem_cons_of_mem t this.2⟩

theorem applySuccesses_closes (cfg : CircuitBreakerConfig) :
    ∀ (n : Nat) (b : Breaker), b.state = .halfOpen →
      b.successes + n = cfg.successThreshold → n ≠ 0 →
      (CircuitBreaker.applySuccesses cfg n b).state = .closed := by
  intro n
  induction n with
  | zero => intro b hb heq hne; exact absurd rfl hne
  | succ m ih =>
    intro b hb heq hne
    rcases Nat.eq_zero_or_pos m with hm | hm
    · subst hm
      have hth : b.successes + 1 = cfg.successThreshold := by omega
      have hrec : CircuitBreaker.recordSuccess cfg b =
          CircuitBreaker.transitionTo
            { b with successes := b.successes + 1 } .closed := by
        unfold CircuitBreaker.recordSuccess
        rw [hb]
        simp [hb, Nat.le_of_eq hth.symm]
      show (CircuitBreaker.applySuccesses cfg 0
        (CircuitBreaker.recordSuccess cfg b)).state = .closed
      rw [hrec]
      simp [CircuitBreaker.applySuccesses, CircuitBreaker.transitionTo]
    · have hlt1 : b.successes + 1 < cfg.successThreshold := by omega
      have hrec : CircuitBreaker.recordSuccess cfg b =
          { b with successes := b.successes + 1 } := by
        unfold CircuitBreaker.recordSuccess
        rw [hb]
        simp [hb, Nat.not_le.mpr hlt1]
      show (CircuitBreaker.applySuccesses cfg m
        (CircuitBreaker.recordSuccess cfg b)).state = .closed
      rw [hrec]
      exact ih { b with successes := b.successes + 1 } (by simp [hb])
        (by simp; omega) (by omega)

/-! ## C4 -/

/-- C4: the circuit-breaker state machine.  From the initial closed
breaker, fewer than `failureThreshold` consecutive failures leave it
closed (and allowed); exactly `failureThreshold` consecutive failures
open it, and while the reset timeout has not elapsed since the last
failure `isAllowed` answers `false`; once `resetTimeout` has elapsed
since the last failure, the next `getState` (hence `isAllowed`)
transitions open → half-open and allows the call; and
`successThreshold` consecutive successes while half-open (with a fresh
success counter) close it. -/
theorem circuitBreaker_state_machine :
    (∀ (cfg : CircuitBreakerConfig) (ts : List Int) (now : Int),
      ts.length < cfg.failureThreshold →
      (CircuitBreaker.applyFailures cfg ts CircuitBreaker.init).state
        = .closed ∧
      (CircuitBreaker.isAllowed cfg now
        (CircuitBreaker.applyFailures cfg ts CircuitBreaker.init)).1
        = true) ∧
    (∀ (cfg : CircuitBreakerConfig) (ts : List Int) (now : Int),
      ts.length = cfg.failureThreshold → 1 ≤ cfg.failureThreshold →
      (∀ t ∈ ts, now - t < cfg.resetTimeout) →
      (CircuitBreaker.applyFailures cfg ts CircuitBreaker.init).state
        = .opened ∧
      (CircuitBreaker.isAllowed cfg now
        (CircuitBreaker.applyFailures cfg ts CircuitBreaker.init)).1
        = false) ∧
    (∀ (cfg : CircuitBreakerConfig) (b : Breaker) (now : Int),
      b.state = .opened → now - b.lastFailureTime ≥ cfg.resetTimeout →
      (CircuitBreaker.getState cfg now b).1 = .halfOpen ∧
      (CircuitBreaker.getState cfg now b).2.state = .halfOpen ∧
      (CircuitBreaker.isAllowed cfg now b).1 = true) ∧
    (∀ (cfg : CircuitBreakerConfig) (b : Breaker),
      b.state = .halfOpen → b.successes = 0 → 1 ≤ cfg.successThreshold →
      (CircuitBreaker.applySuccesses cfg cfg.successThreshold b).state
        = .closed) := by
  refine ⟨?_, ?_, ?_, ?_⟩
  · intro cfg ts now hlt
    have h := applyFailures_closed_lt cfg ts CircuitBreaker.init rfl
      (by simpa [CircuitBreaker.init] using hlt)
    refine ⟨h.1, ?_⟩
    unfold CircuitBreaker.isAllowed CircuitBreaker.getState
    simp [h.1]
  · intro cfg ts now hlen hth hts
    have hne : ts ≠ [] := by
      intro hcon
      rw [hcon] at hlen
      simp at hlen
      omega
    have h := applyFailures_opens cfg ts CircuitBreaker.init rfl
      (by simpa [CircuitBreaker.init] using hlen) hne
    refine ⟨h.1, ?_⟩
    have hlast := hts _ h.2
    unfold CircuitBreaker.isAllowed CircuitBreaker.getState
    simp [h.1, not_le.mpr hlast]
  · intro cfg b now hb hreset
    unfold CircuitBreaker.isAllowed CircuitBreaker.getState
    simp [hb, hreset, CircuitBreaker.transitionTo]
  · intro cfg b hb hs hth
    exact applySuccesses_closes cfg cfg.successThreshold b hb (by omega)
      (by omega)

/-- C4 witness: with thresholds 5/2 and reset 30000 ms — four failures
keep the breaker closed; a fifth opens it and an immediate call is
refused; 30 s after the last failure the state check reports
half-open; two successes in half-open close it. -/
theorem circuitBreaker_state_machine_witness :
    (CircuitBreaker.applyFailures ⟨5, 30000, 2⟩ [1, 2, 3, 4]
      CircuitBreaker.init).state = .closed ∧
    (CircuitBreaker.applyFailures ⟨5, 30000, 2⟩ [1, 2, 3, 4, 5]
      CircuitBreaker.init).state = .opened ∧
    (CircuitBreaker.isAllowed ⟨5, 30000, 2⟩ 6
      (CircuitBreaker.applyFailures ⟨5, 30000, 2⟩ [1, 2, 3, 4, 5]
        CircuitBreaker.init)).1 = false ∧
    (CircuitBreaker.getState ⟨5, 30000, 2⟩ 30005
      (CircuitBreaker.applyFailures ⟨5, 30000, 2⟩ [1, 2, 3, 4, 5]
        CircuitBreaker.init)).1 = .halfOpen ∧
    (CircuitBreaker.applySuccesses ⟨5, 30000, 2⟩ 2
      ⟨.halfOpen, 5, 0, 5⟩).state = .closed :=
  ⟨(circuitBreaker_state_machine.1 ⟨5, 30000, 2⟩ [1, 2, 3, 4] 0
      (by decide)).1,
   (circuitBreaker_state_machine.2.1 ⟨5, 30000, 2⟩ [1, 2, 3, 4, 5] 6
      (by decide) (by decide) (by decide)).1,
   (circuitBreaker_state_machine.2.1 ⟨5, 30000, 2⟩ [1, 2, 3, 4, 5] 6
      (by decide) (by decide) (by decide)).2,
   (circuitBreaker_state_machine.2.2.1 ⟨5, 30000, 2⟩
      (CircuitBreaker.applyFailures ⟨5, 30000, 2⟩ [1, 2, 3, 4, 5]
        CircuitBreaker.init) 30005 (by decide) (by decide)).1,
   circuitBreaker_state_machine.2.2.2 ⟨5, 30000, 2⟩ ⟨.halfOpen, 5, 0, 5⟩
      rfl rfl (by decide)⟩

/-! ## C6 -/

/-- C6 counterexample: drive the default-configured breaker
(thresholds 5/2, reset 30 s) to half-open with one recorded success,
then record a failure.  The state is open, but `getStats` immediately
afterwards still reports `successes = 1`: `transitionTo('open')`
resets nothing, so the consecutive-success count is *not* zeroed by
the failure. -/
theorem halfOpen_failure_stale_successes :
    (CircuitBreaker.getStats ⟨5, 30000, 2⟩ 30001
      (CircuitBreaker.recordFailure ⟨5, 30000, 2⟩ 30001
        (CircuitBreaker.recordSuccess ⟨5, 30000, 2⟩
          (CircuitBreaker.getState ⟨5, 30000, 2⟩ 30000
            (CircuitBreaker.applyFailures ⟨5, 30000, 2⟩ [0, 0, 0, 0, 0]
              CircuitBreaker.init)).2))).1.state = .opened ∧
    (CircuitBreaker.getStats ⟨5, 30000, 2⟩ 30001
      (CircuitBreaker.recordFailure ⟨5, 30000, 2⟩ 30001
        (CircuitBreaker.recordSuccess ⟨5, 30000, 2⟩
          (CircuitBreaker.getState ⟨5, 30000, 2⟩ 30000
            (CircuitBreaker.applyFailures ⟨5, 30000, 2⟩ [0, 0, 0, 0, 0]
              CircuitBreaker.init)).2))).1.successes = 1 := by
  decide

/-- C6 (amended): a `recordFailure` in the half-open state makes the
resulting state open, increments the failure count and stamps the
failure time, but leaves the consecutive-success count unchanged (so
`getStats` immediately afterwards still shows the old count); the
count is zeroed only on the next transition into half-open, once the
reset timeout elapses. -/
theorem halfOpen_failure_opens (cfg : CircuitBreakerConfig) (now : Int)
    (b : Breaker) (hb : b.state = .halfOpen) :
    (CircuitBreaker.recordFailure cfg now b).state = .opened ∧
    (CircuitBreaker.recordFailure cfg now b).successes = b.successes ∧
    (CircuitBreaker.recordFailure cfg now b).failures = b.failures + 1 ∧
    (CircuitBreaker.recordFailure cfg now b).lastFailureTime = now ∧
    (∀ now2 : Int, now2 - now ≥ cfg.resetTimeout →
      (CircuitBreaker.getState cfg now2
        (CircuitBreaker.recordFailure cfg now b)).1 = .halfOpen ∧
      (CircuitBreaker.getState cfg now2
        (CircuitBreaker.recordFailure cfg now b)).2.successes = 0) := by
  have hrec : CircuitBreaker.recordFailure cfg now b =
      ⟨.opened, b.failures + 1, b.successes, now⟩ := by
    unfold CircuitBreaker.recordFailure
    rw [hb]
    simp [hb, CircuitBreaker.transitionTo]
  rw [hrec]
  refine ⟨rfl, rfl, rfl, rfl, ?_⟩
  intro now2 h2
  unfold CircuitBreaker.getState
  simp [CircuitBreaker.transitionTo, h2]

/-- C6 witness: the amended behaviour at a concrete half-open breaker
with one recorded success. -/
theorem halfOpen_failure_opens_witness :
    (CircuitBreaker.recordFailure ⟨5, 30000, 2⟩ 7
      ⟨.halfOpen, 5, 1, 0⟩).state = .opened ∧
    (CircuitBreaker.recordFailure ⟨5, 30000, 2⟩ 7
      ⟨.halfOpen, 5, 1, 0⟩).successes = 1 ∧
    (CircuitBreaker.recordFailure ⟨5, 30000, 2⟩ 7
      ⟨.halfOpen, 5, 1, 0⟩).failures = 6 ∧
    (CircuitBreaker.recordFailure ⟨5, 30000, 2⟩ 7
      ⟨.halfOpen, 5, 1, 0⟩).lastFailureTime = 7 ∧
    (∀ now2 : Int, now2 - 7 ≥ 30000 →
      (CircuitBreaker.getState ⟨5, 30000, 2⟩ now2
        (CircuitBreaker.recordFailure ⟨5, 30000, 2⟩ 7
          ⟨.halfOpen, 5, 1, 0⟩)).1 = .halfOpen ∧
      (CircuitBreaker.getState ⟨5, 30000, 2⟩ now2
        (CircuitBreaker.recordFailure ⟨5, 30000, 2⟩ 7
          ⟨.halfOpen, 5, 1, 0⟩)).2.successes = 0) :=
  halfOpen_failure_opens ⟨5, 30000, 2⟩ 7 ⟨.halfOpen, 5, 1, 0⟩ rfl

/-! ## C5 -/

theorem recordFailure_lastFailureTime (cfg : CircuitBreakerConfig)
    (now : Int) (b : Breaker) :
    (CircuitBreaker.recordFailure cfg now b).lastFailureTime = now := by
  unfold CircuitBreaker.recordFailure CircuitBreaker.transitionTo
  rcases b with ⟨st, f, s, l⟩
  cases st
  · simp
    split <;> simp
  · simp
  · simp

theorem isAllowed_at_failure_instant (cfg : CircuitBreakerConfig)
    (now : Int) (b : Breaker) (hl : b.lastFailureTime = now)
    (hres : 0 < cfg.resetTimeout) :
    CircuitBreaker.isAllowed cfg now b =
      (decide (b.state = .closed ∨ b.state = .halfOpen), b) := by
  unfold CircuitBreaker.isAllowed CircuitBreaker.getState
  have hno : ¬ (b.state = .opened ∧ now - b.lastFailureTime ≥ cfg.resetTimeout) := by
    rintro ⟨h1, h2⟩
    rw [hl] at h2
    omega
  simp [hno]

/-- C5: when the circuit disallows the call, `withCircuitBreaker` never
invokes the wrapped operation and returns the fallback's value when a
fallback is provided, otherwise the `CircuitBreakerOpenError`; when the
call is allowed and the operation fails, the failure is recorded
(failure count incremented, time stamped) and — if a fallback exists
and the circuit is open right after this failure (i.e. it just opened
from it) — the fallback's value is returned instead of the error, which
otherwise propagates. -/
theorem withCircuitBreaker_spec :
    (∀ (T E : Type) (name : String) (cfg : CircuitBreakerConfig)
      (now : Int) (b : Breaker) (fnOutcome : Except E T)
      (fallback : Option T),
      (CircuitBreaker.isAllowed cfg now b).1 = false →
      (withCircuitBreaker name cfg now b fnOutcome fallback).2.2 = false ∧
      (withCircuitBreaker name cfg now b fnOutcome fallback).1 =
        (match fallback with
         | some v => CBResult.ok v
         | none => CBResult.openError name)) ∧
    (∀ (T E : Type) (name : String) (cfg : CircuitBreakerConfig)
      (now : Int) (b : Breaker) (e : E) (fallback : Option T),
      (CircuitBreaker.isAllowed cfg now b).1 = true →
      0 < cfg.resetTimeout →
      (withCircuitBreaker name cfg now b (Except.error e) fallback).2.2
        = true ∧
      (withCircuitBreaker name cfg now b (Except.error e) fallback).2.1 =
        CircuitBreaker.recordFailure cfg now
          (CircuitBreaker.isAllowed cfg now b).2 ∧
      ((CircuitBreaker.recordFailure cfg now
          (CircuitBreaker.isAllowed cfg now b).2).state = .opened →
        (withCircuitBreaker name cfg now b (Except.error e) fallback).1 =
          (match fallback with
           | some v => CBResult.ok v
           | none => CBResult.err e)) ∧
      ((CircuitBreaker.recordFailure cfg now
          (CircuitBreaker.isAllowed cfg now b).2).state ≠ .opened →
        (withCircuitBreaker name cfg now b (Except.error e) fallback).1 =
          CBResult.err e)) := by
  constructor
  · intro T E name cfg now b fnOutcome fallback hdis
    unfold withCircuitBreaker
    rcases hIA : CircuitBreaker.isAllowed cfg now b with ⟨allowed, b1⟩
    rw [hIA] at hdis
    simp at hdis
    subst hdis
    rcases fallback with _ | v <;> simp
  · intro T E name cfg now b e fallback hall hres
    unfold withCircuitBreaker
    rcases hIA : CircuitBreaker.isAllowed cfg now b with ⟨allowed, b1⟩
    rw [hIA] at hall
    simp at hall
    subst hall
    have hb2l : (CircuitBreaker.recordFailure cfg now b1).lastFailureTime
        = now := recordFailure_lastFailureTime cfg now b1
    have hIA2 := isAllowed_at_failure_instant cfg now
      (CircuitBreaker.recordFailure cfg now b1) hb2l hres
    rcases fallback with _ | v
    · refine ⟨rfl, rfl, ?_, ?_⟩ <;> intro _ <;> rfl
    · simp only [hIA2]
      by_cases hop : (CircuitBreaker.recordFailure cfg now b1).state
          = .opened
      · have hdec : decide
            ((CircuitBreaker.recordFailure cfg now b1).state = .closed ∨
             (CircuitBreaker.recordFailure cfg now b1).state = .halfOpen)
            = false := by
          rw [hop]
          decide
        simp [hdec, hop]
      · have hdec : decide
            ((CircuitBreaker.recordFailure cfg now b1).state = .closed ∨
             (CircuitBreaker.recordFailure cfg now b1).state = .halfOpen)
            = true := by
          rcases hst : (CircuitBreaker.recordFailure cfg now b1).state
          · decide
          · exact absurd hst hop
          · decide
        simp [hdec, hop]

/-- C5 witness: with thresholds 5/2 and reset 30000 — an open breaker
refuses the call and returns the fallback without invoking the
operation; a closed breaker at 4 failures invokes the failing
operation, the 5th failure opens the circuit, and the fallback's value
comes back instead of the error. -/
theorem withCircuitBreaker_spec_witness :
    (withCircuitBreaker "api" ⟨5, 30000, 2⟩ 1 ⟨.opened, 5, 0, 0⟩
      (Except.ok 42) (some 7) : CBResult Nat Nat × Breaker × Bool).2.2
      = false ∧
    (withCircuitBreaker "api" ⟨5, 30000, 2⟩ 1 ⟨.opened, 5, 0, 0⟩
      (Except.ok 42) (some 7) : CBResult Nat Nat × Breaker × Bool).1
      = CBResult.ok 7 ∧
    (withCircuitBreaker "api" ⟨5, 30000, 2⟩ 1 ⟨.closed, 4, 0, 0⟩
      (Except.error 9) (some 7) : CBResult Nat Nat × Breaker × Bool).2.2
      = true ∧
    (withCircuitBreaker "api" ⟨5, 30000, 2⟩ 1 ⟨.closed, 4, 0, 0⟩
      (Except.error 9) (some 7) : CBResult Nat Nat × Breaker × Bool).1
      = CBResult.ok 7 := by
  refine ⟨?_, ?_, ?_, ?_⟩
  · exact (withCircuitBreaker_spec.1 Nat Nat "api" ⟨5, 30000, 2⟩ 1
      ⟨.opened, 5, 0, 0⟩ (Except.ok 42) (some 7) (by decide)).1
  · exact (withCircuitBreaker_spec.1 Nat Nat "api" ⟨5, 30000, 2⟩ 1
      ⟨.opened, 5, 0, 0⟩ (Except.ok 42) (some 7) (by decide)).2
  · exact (withCircuitBreaker_spec.2 Nat Nat "api" ⟨5, 30000, 2⟩ 1
      ⟨.closed, 4, 0, 0⟩ 9 (some 7) (by decide) (by decide)).1
  · exact (withCircuitBreaker_spec.2 Nat Nat "api" ⟨5, 30000, 2⟩ 1
      ⟨.closed, 4, 0, 0⟩ 9 (some 7) (by decide) (by decide)).2.2.1
      (by decide)

/-! ## Dedup / coalescing lemmas (C7) -/

theorem dedupInit_inv (n : Nat) : DedupInv (dedupInit n) := by
  constructor
  · intro _
    refine ⟨rfl, ?_, ?_, ?_⟩
    · intro hcon
      simp [dedupInit] at hcon
    · intro _ i
      constructor <;>
        · intro hcon
          simp [dedupInit, List.getElem?_replicate] at hcon
    · intro i v
      constructor <;>
        · intro hcon
          simp [dedupInit, List.getElem?_replicate] at hcon
  · intro v hcon
    simp [dedupInit] at hcon

theorem dedupStep_length (s s' : DedupState) (e : DedupEvent)
    (h : dedupStep s e = some s') : s'.phases.length = s.phases.length := by
  rcases e with c | ⟨c, v⟩ | c <;> unfold dedupStep at h <;> dsimp only at h
  · rcases hc : s.phases[c]? with _ | p
    · rw [hc] at h
      simp at h
    · rw [hc] at h
      rcases p with _ | _ | _ | w | w
      · by_cases hp : s.pending = true
        · rw [if_pos hp] at h
          obtain rfl := Option.some.inj h
          simp
        · rw [if_neg hp] at h
          obtain rfl := Option.some.inj h
          simp
      all_goals simp at h
  · rcases hc : s.phases[c]? with _ | p
    · rw [hc] at h
      simp at h
    · rw [hc] at h
      rcases p with _ | _ | _ | w | w
      case executing =>
        obtain rfl := Option.some.inj h
        simp
      all_goals simp at h
  · rcases hc : s.phases[c]? with _ | p
    · rw [hc] at h
      simp at h
    · rw [hc] at h
      rcases p with _ | _ | _ | w | w
      case waiting =>
        rcases hr : s.resolved with _ | v
        · rw [hr] at h
          simp at h
        · rw [hr] at h
          obtain rfl := Option.some.inj h
          simp
      all_goals simp at h

theorem dedupRun_length :
    ∀ (tr : List DedupEvent) (s s' : DedupState),
      dedupRun s tr = some s' → s'.phases.length = s.phases.length := by
  intro tr
  induction tr with
  | nil =>
    intro s s' h
    unfold dedupRun at h
    obtain rfl := Option.some.inj h
    rfl
  | cons e es ih =>
    intro s s' h
    unfold dedupRun at h
    rcases hstep : dedupStep s e with _ | s1
    · rw [hstep] at h
      simp at h
    · rw [hstep] at h
      rw [ih s1 s' h, dedupStep_length s s1 e hstep]

theorem dedupStep_inv_enter (s s' : DedupState) (c : Nat)
    (h : dedupStep s (DedupEvent.enter c) = some s')
    (hres : s.resolved = none) (hinv : DedupInv s) :
    DedupInv s' ∧ s'.resolved = none := by
  unfold dedupStep at h
  dsimp only at h
  rcases hc : s.phases[c]? with _ | p
  · rw [hc] at h
    simp at h
  · rw [hc] at h
    rcases p with _ | _ | _ | w | w
    case notStarted =>
      obtain ⟨hclt, hcval⟩ := List.getElem?_eq_some_iff.mp hc
      obtain ⟨hA, hB⟩ := hinv
      obtain ⟨ho, hpt, hpf, hnd⟩ := hA hres
      by_cases hp : s.pending = true
      · rw [if_pos hp] at h
        obtain rfl := Option.some.inj h
        refine ⟨⟨?_, ?_⟩, hres⟩
        · intro _
          refine ⟨?_, ?_, ?_, ?_⟩
          · simpa using ho
          · intro _
            obtain ⟨j, hj, hju⟩ := hpt hp
            have hjc : j ≠ c := by
              intro hjc
              rw [hjc, hc] at hj
              simp at hj
            refine ⟨j, ?_, ?_⟩
            · show (s.phases.set c CallerPhase.waiting)[j]? = _
              rw [List.getElem?_set_ne (Ne.symm hjc)]
              exact hj
            · intro i hij
              by_cases hic : i = c
              · subst hic
                show (s.phases.set i CallerPhase.waiting)[i]? ≠ _
                rw [List.getElem?_set_self hclt]
                simp
              · have hci : c ≠ i := fun hh => hic hh.symm
                show (s.phases.set c CallerPhase.waiting)[i]? ≠ _
                rw [List.getElem?_set_ne hci]
                exact hju i hij
          · intro hcon
            have hcon2 : s.pending = false := hcon
            rw [hp] at hcon2
            cases hcon2
          · intro i v
            by_cases hic : i = c
            · subst hic
              constructor <;>
                · show (s.phases.set i CallerPhase.waiting)[i]? ≠ _
                  rw [List.getElem?_set_self hclt]
                  simp
            · have hci : c ≠ i := fun hh => hic hh.symm
              constructor <;>
                · show (s.phases.set c CallerPhase.waiting)[i]? ≠ _
                  rw [List.getElem?_set_ne hci]
                  first
                    | exact (hnd i v).1
                    | exact (hnd i v).2
        · intro v hcon
          have hcon2 : s.resolved = some v := hcon
          rw [hres] at hcon2
          cases hcon2
      · rw [if_neg hp] at h
        obtain rfl := Option.some.inj h
        have hpfalse : s.pending = false := by
          simpa using hp
        refine ⟨⟨?_, ?_⟩, hres⟩
        · intro _
          refine ⟨?_, ?_, ?_, ?_⟩
          · show s.outbound + 1 = _
            rw [ho, hpfalse]
            simp
          · intro _
            refine ⟨c, ?_, ?_⟩
            · show (s.phases.set c CallerPhase.executing)[c]? = _
              rw [List.getElem?_set_self hclt]
            · intro i hic
              have hci : c ≠ i := fun hh => hic hh.symm
              show (s.phases.set c CallerPhase.executing)[i]? ≠ _
              rw [List.getElem?_set_ne hci]
              exact (hpf hpfalse i).1
          · intro hcon
            have hcon2 : (true : Bool) = false := hcon
            cases hcon2
          · intro i v
            by_cases hic : i = c
            · subst hic
              constructor <;>
                · show (s.phases.set i CallerPhase.executing)[i]? ≠ _
                  rw [List.getElem?_set_self hclt]
                  simp
            · have hci : c ≠ i := fun hh => hic hh.symm
              constructor <;>
                · show (s.phases.set c CallerPhase.executing)[i]? ≠ _
                  rw [List.getElem?_set_ne hci]
                  first
                    | exact (hnd i v).1
                    | exact (hnd i v).2
        · intro v hcon
          have hcon2 : s.resolved = some v := hcon
          rw [hres] at hcon2
          cases hcon2
    all_goals simp at h

theorem dedupStep_inv_finishExec (s s' : DedupState) (c v : Nat)
    (h : dedupStep s (DedupEvent.finishExec c v) = some s')
    (hinv : DedupInv s) :
    DedupInv s' ∧ s'.resolved = some v ∧ s.resolved = none := by
  unfold dedupStep at h
  dsimp only at h
  rcases hc : s.phases[c]? with _ | p
  · rw [hc] at h
    simp at h
  · rw [hc] at h
    rcases p with _ | _ | _ | w | w
    case executing =>
      obtain rfl := Option.some.inj h
      obtain ⟨hclt, hcval⟩ := List.getElem?_eq_some_iff.mp hc
      obtain ⟨hA, hB⟩ := hinv
      have hres : s.resolved = none := by
        rcases hr : s.resolved with _ | u
        · rfl
        · exfalso
          obtain ⟨_, _, hnoexec, _, _⟩ := hB u hr
          exact hnoexec c hc
      obtain ⟨ho, hpt, hpf, hnd⟩ := hA hres
      have hptrue : s.pending = true := by
        rcases hb : s.pending
        · exact absurd hc ((hpf hb c).1)
        · rfl
      obtain ⟨j, hj, hju⟩ := hpt hptrue
      have hcj : c = j := by
        by_contra hcj
        exact hju c hcj hc
      subst hcj
      refine ⟨⟨?_, ?_⟩, rfl, hres⟩
      · intro hcon
        have hcon2 : (some v : Option Nat) = none := hcon
        cases hcon2
      · intro u hu
        have huv : v = u := Option.some.inj hu
        subst huv
        refine ⟨rfl, ?_, ?_, ?_, ?_⟩
        · show s.outbound = 1
          rw [ho, hptrue]
          simp
        · intro i
          by_cases hic : i = c
          · subst hic
            show (s.phases.set i (CallerPhase.doneExec v))[i]? ≠ _
            rw [List.getElem?_set_self hclt]
            simp
          · have hci : c ≠ i := fun hh => hic hh.symm
            show (s.phases.set c (CallerPhase.doneExec v))[i]? ≠ _
            rw [List.getElem?_set_ne hci]
            exact hju i hic
        · refine ⟨c, ?_, ?_⟩
          · show (s.phases.set c (CallerPhase.doneExec v))[c]? = _
            rw [List.getElem?_set_self hclt]
          · intro i hic w2
            have hci : c ≠ i := fun hh => hic hh.symm
            show (s.phases.set c (CallerPhase.doneExec v))[i]? ≠ _
            rw [List.getElem?_set_ne hci]
            exact (hnd i w2).1
        · intro i w2
          by_cases hic : i = c
          · subst hic
            show (s.phases.set i (CallerPhase.doneExec v))[i]? = _ → _
            rw [List.getElem?_set_self hclt]
            intro hcon
            simp at hcon
          · have hci : c ≠ i := fun hh => hic hh.symm
            show (s.phases.set c (CallerPhase.doneExec v))[i]? = _ → _
            rw [List.getElem?_set_ne hci]
            intro hcon
            exact absurd hcon (hnd i w2).2
    all_goals simp at h

theorem dedupStep_inv_finishWait (s s' : DedupState) (c : Nat)
    (h : dedupStep s (DedupEvent.finishWait c) = some s')
    (hinv : DedupInv s) :
    DedupInv s' ∧ s'.resolved = s.resolved := by
  unfold dedupStep at h
  dsimp only at h
  rcases hc : s.phases[c]? with _ | p
  · rw [hc] at h
    simp at h
  · rw [hc] at h
    rcases p with _ | _ | _ | w | w
    case waiting =>
      rcases hr : s.resolved with _ | v
      · rw [hr] at h
        simp at h
      · rw [hr] at h
        obtain rfl := Option.some.inj h
        obtain ⟨hclt, hcval⟩ := List.getElem?_eq_some_iff.mp hc
        obtain ⟨hA, hB⟩ := hinv
        obtain ⟨hpend, hout, hnoexec, ⟨j, hj, hju⟩, hwait⟩ := hB v hr
        have hjc : j ≠ c := by
          intro hjc
          rw [hjc, hc] at hj
          simp at hj
        refine ⟨⟨?_, ?_⟩, rfl⟩
        · intro hcon
          have hcon2 : (some v : Option Nat) = none := hcon
          cases hcon2
        · intro u hu
          have huv : v = u := Option.some.inj hu
          subst huv
          refine ⟨hpend, hout, ?_, ⟨j, ?_, ?_⟩, ?_⟩
          · intro i
            by_cases hic : i = c
            · subst hic
              show (s.phases.set i (CallerPhase.doneWait v))[i]? ≠ _
              rw [List.getElem?_set_self hclt]
              simp
            · have hci : c ≠ i := fun hh => hic hh.symm
              show (s.phases.set c (CallerPhase.doneWait v))[i]? ≠ _
              rw [List.getElem?_set_ne hci]
              exact hnoexec i
          · show (s.phases.set c (CallerPhase.doneWait v))[j]? = _
            rw [List.getElem?_set_ne (Ne.symm hjc)]
            exact hj
          · intro i hij w2
            by_cases hic : i = c
            · subst hic
              show (s.phases.set i (CallerPhase.doneWait v))[i]? ≠ _
              rw [List.getElem?_set_self hclt]
              simp
            · have hci : c ≠ i := fun hh => hic hh.symm
              show (s.phases.set c (CallerPhase.doneWait v))[i]? ≠ _
              rw [List.getElem?_set_ne hci]
              exact hju i hij w2
          · intro i w2
            by_cases hic : i = c
            · subst hic
              show (s.phases.set i (CallerPhase.doneWait v))[i]? = _ → _
              rw [List.getElem?_set_self hclt]
              intro hcon
              have hcon2 : CallerPhase.doneWait v = CallerPhase.doneWait w2 :=
                Option.some.inj hcon
              injection hcon2 with h3
              exact h3.symm
            · have hci : c ≠ i := fun hh => hic hh.symm
              show (s.phases.set c (CallerPhase.doneWait v))[i]? = _ → _
              rw [List.getElem?_set_ne hci]
              exact hwait i w2
    all_goals simp at h

theorem dedupRun_inv :
    ∀ (tr : List DedupEvent) (s s' : DedupState),
      dedupRun s tr = some s' → DedupInv s → DedupSchedOK s tr →
      DedupInv s' := by
  intro tr
  induction tr with
  | nil =>
    intro s s' h hinv _
    unfold dedupRun at h
    obtain rfl := Option.some.inj h
    exact hinv
  | cons e es ih =>
    intro s s' h hinv hsched
    unfold dedupRun at h
    rcases hstep : dedupStep s e with _ | s1
    · rw [hstep] at h
      simp at h
    · rw [hstep] at h
      rcases e with c | ⟨c, v⟩ | c
      · have hres : s.resolved = none := by
          rcases hr : s.resolved with _ | w
          · rfl
          · exfalso
            unfold DedupSchedOK at hsched
            rw [hr] at hsched
            simp [isEnterEvent] at hsched
        obtain ⟨hinv1, hres1⟩ := dedupStep_inv_enter s s1 c hstep hres hinv
        refine ih s1 s' h hinv1 ?_
        unfold DedupSchedOK at hsched ⊢
        rw [hres] at hsched
        rw [hres1]
        simp only [Option.isSome_none, Bool.false_eq_true, if_false] at hsched ⊢
        exact hsched
      · obtain ⟨hinv1, hres1, hres0⟩ :=
          dedupStep_inv_finishExec s s1 c v hstep hinv
        refine ih s1 s' h hinv1 ?_
        unfold DedupSchedOK at hsched ⊢
        rw [hres0] at hsched
        rw [hres1]
        simp only [Option.isSome_none, Bool.false_eq_true, if_false] at hsched
        simp only [Option.isSome_some, if_true]
        exact hsched
      · have hex : ∃ w, s.resolved = some w := by
          unfold dedupStep at hstep
          dsimp only at hstep
          rcases hr : s.resolved with _ | w
          · exfalso
            rcases hc : s.phases[c]? with _ | p
            · rw [hc] at hstep
              simp at hstep
            · rw [hc] at hstep
              rcases p with _ | _ | _ | w2 | w2 <;> rw [hr] at hstep <;>
                simp at hstep
          · exact ⟨w, rfl⟩
        obtain ⟨w, hr⟩ := hex
        obtain ⟨hinv1, hres1⟩ := dedupStep_inv_finishWait s s1 c hstep hinv
        refine ih s1 s' h hinv1 ?_
        unfold DedupSchedOK at hsched ⊢
        rw [hr] at hsched
        rw [hres1, hr]
        simp only [Option.isSome_some, if_true] at hsched ⊢
        simp at hsched
        simp
        exact hsched.2

/-! ## C7 -/

/-- C7: for any number of callers and any cooperative schedule in
which every caller enters the creation handler before any caller
completes (the claim's scenario), when all callers have returned:
exactly one outbound creation call was made, the promise resolved to
some spark id `v`, every caller observed exactly that id (the executor
as `doneExec v`, each of the other N−1 as `doneWait v` after awaiting
the shared pending promise installed atomically at entry), and the
executor is unique. -/
theorem createSpark_dedup_coalesces (n : Nat) (tr : List DedupEvent)
    (s' : DedupState)
    (hrun : dedupRun (dedupInit n) tr = some s')
    (hsched : entersPrecedeCompletion tr = true)
    (hn : 0 < n)
    (hdone : ∀ p ∈ s'.phases, isDonePhase p = true) :
    s'.outbound = 1 ∧
    ∃ v : Nat, s'.resolved = some v ∧
      (∀ p ∈ s'.phases,
        p = CallerPhase.doneExec v ∨ p = CallerPhase.doneWait v) ∧
      (∃ j : Nat, s'.phases[j]? = some (CallerPhase.doneExec v) ∧
        ∀ i : Nat, i ≠ j → ∀ w : Nat,
          s'.phases[i]? ≠ some (CallerPhase.doneExec w)) := by
  have hlen : s'.phases.length = n := by
    rw [dedupRun_length tr (dedupInit n) s' hrun]
    simp [dedupInit]
  have hinv : DedupInv s' := by
    refine dedupRun_inv tr (dedupInit n) s' hrun (dedupInit_inv n) ?_
    unfold DedupSchedOK
    simp [dedupInit]
    exact hsched
  obtain ⟨hA, hB⟩ := hinv
  rcases hr : s'.resolved with _ | v
  · exfalso
    obtain ⟨_, _, _, hnd⟩ := hA hr
    have h0 : ∃ p, s'.phases[0]? = some p := by
      rcases hg : s'.phases[0]? with _ | p
      · rw [List.getElem?_eq_none_iff] at hg
        omega
      · exact ⟨p, rfl⟩
    obtain ⟨p, hp⟩ := h0
    have hd := hdone p (List.getElem?_mem hp)
    rcases p with _ | _ | _ | w | w
    · simp [isDonePhase] at hd
    · simp [isDonePhase] at hd
    · simp [isDonePhase] at hd
    · exact (hnd 0 w).1 hp
    · exact (hnd 0 w).2 hp
  · obtain ⟨hpend, hout, hnoexec, ⟨j, hj, hju⟩, hwait⟩ := hB v hr
    refine ⟨hout, v, rfl, ?_, ⟨j, hj, hju⟩⟩
    intro p hmem
    obtain ⟨i, hi⟩ := List.mem_iff_getElem?.mp hmem
    have hd := hdone p hmem
    rcases p with _ | _ | _ | w | w
    · simp [isDonePhase] at hd
    · simp [isDonePhase] at hd
    · simp [isDonePhase] at hd
    · left
      by_cases hij : i = j
      · subst hij
        rw [hi] at hj
        have := Option.some.inj hj
        rw [this]
      · exact absurd hi (hju i hij w)
    · right
      rw [hwait i w hi]

/-- C7 witness: two callers, both entering before the first completes;
caller 0 executes the single outbound call and resolves 42, caller 1
awaits the shared promise and observes the same 42. -/
theorem createSpark_dedup_coalesces_witness :
    (⟨false, some 42, 1,
        [CallerPhase.doneExec 42, CallerPhase.doneWait 42]⟩ :
      DedupState).outbound = 1 ∧
    ∃ v : Nat,
      (⟨false, some 42, 1,
          [CallerPhase.doneExec 42, CallerPhase.doneWait 42]⟩ :
        DedupState).resolved = some v ∧
      (∀ p ∈ (⟨false, some 42, 1,
          [CallerPhase.doneExec 42, CallerPhase.doneWait 42]⟩ :
        DedupState).phases,
        p = CallerPhase.doneExec v ∨ p = CallerPhase.doneWait v) ∧
      (∃ j : Nat, (⟨false, some 42, 1,
          [CallerPhase.doneExec 42, CallerPhase.doneWait 42]⟩ :
        DedupState).phases[j]? = some (CallerPhase.doneExec v) ∧
        ∀ i : Nat, i ≠ j → ∀ w : Nat,
          (⟨false, some 42, 1,
              [CallerPhase.doneExec 42, CallerPhase.doneWait 42]⟩ :
            DedupState).phases[i]? ≠ some (CallerPhase.doneExec w)) :=
  createSpark_dedup_coalesces 2
    [DedupEvent.enter 0, DedupEvent.enter 1, DedupEvent.finishExec 0 42,
     DedupEvent.finishWait 1]
    ⟨false, some 42, 1, [CallerPhase.doneExec 42, CallerPhase.doneWait 42]⟩
    (by decide) (by decide) (by decide) (by decide)
